import Mathlib

/-!
Shallow embedding of the request-throttling subsystem of the winter
repository (src/winter/web/throttling.py), together with proofs of the
behavioural properties of its sliding-window rate limiter, its identity
resolver and its rate-expression parser.

Timestamps are modelled as exact rationals; the Django cache is modelled
as an association list of key / history / ttl entries extended with two
operation counters so that frame properties about store access can be
stated.
-/

namespace Winter

/-- Embedding of the dataclass Throttling: num_requests, duration (in
seconds) and scope.  Python int is modelled as Int. -/
structure Throttling where
  num_requests : Int
  duration : Int
  scope : String
  deriving DecidableEq, Repr

/-- The request data that BaseRateThrottle reads: the authenticated flag
and primary key of request.user, and the two META entries consulted by
get_ident_from_meta.  Optional values model Python None / absent keys. -/
structure Request where
  is_authenticated : Bool
  pk : Option Nat
  http_x_forwarded_for : Option String
  remote_addr : Option String
  deriving DecidableEq, Repr

/-- The Django cache: stored entries (key, value, ttl of the last set)
plus counters of get and set operations, so that frame claims about
store access can be expressed. -/
structure Cache where
  data : List (String × List Rat × Int)
  getOps : Nat
  setOps : Nat
  deriving DecidableEq, Repr

/-- Lookup of a key in the stored entries. -/
def storeLookup (data : List (String × List Rat × Int)) (key : String) :
    Option (List Rat × Int) :=
  match data with
  | [] => none
  | (k, v, ttl) :: rest => if k = key then some (v, ttl) else storeLookup rest key

/-- Overwrite the entry of a key, or append a fresh entry. -/
def storeInsert (data : List (String × List Rat × Int)) (key : String)
    (v : List Rat) (ttl : Int) : List (String × List Rat × Int) :=
  match data with
  | [] => [(key, v, ttl)]
  | (k, v0, t0) :: rest =>
      if k = key then (key, v, ttl) :: rest
      else (k, v0, t0) :: storeInsert rest key v ttl

/-- Embedding of self.cache.get(key): returns the stored value (without
its ttl) and bumps the get counter. -/
def cache_get (c : Cache) (key : String) : Option (List Rat) × Cache :=
  ((storeLookup c.data key).map Prod.fst, { c with getOps := c.getOps + 1 })

/-- Embedding of self.cache.set(key, value, ttl): overwrites the entry
and bumps the set counter. -/
def cache_set (c : Cache) (key : String) (value : List Rat) (ttl : Int) : Cache :=
  { c with data := storeInsert c.data key value ttl, setOps := c.setOps + 1 }

/-- Embedding of the Python expression ''.join(s.split()): joining the
whitespace-split pieces with the empty separator removes every
whitespace character of the string. -/
def removeWhitespace (s : String) : String :=
  String.mk (s.data.filter (fun c => !c.isWhitespace))

/-- Embedding of BaseRateThrottle.get_ident_from_meta: the forwarded-for
header with all whitespace removed when the header is present and
non-empty (Python truthiness), else REMOTE_ADDR, which may be absent. -/
def get_ident_from_meta (request : Request) : Option String :=
  match request.http_x_forwarded_for with
  | some xff => if xff = "" then request.remote_addr else some (removeWhitespace xff)
  | none => request.remote_addr

/-- Embedding of BaseRateThrottle.get_ident: str(request.user.pk) when
the user is authenticated and has a primary key, else the meta-based
identity, which may be absent. -/
def get_ident (request : Request) : Option String :=
  let user_pk := if request.is_authenticated then request.pk else none
  match user_pk with
  | some pk => some (toString pk)
  | none => get_ident_from_meta request

/-- Python str() of an optional string, as used when the identity is
interpolated into the cache key format. -/
def pyStr (s : Option String) : String :=
  match s with
  | none => "None"
  | some s => s

/-- Embedding of BaseRateThrottle._get_cache_key, instantiating the
class attribute cache_format, the string throttle_{scope}_{ident}. -/
def _get_cache_key (scope : String) (ident : Option String) : String :=
  "throttle_" ++ scope ++ "_" ++ pyStr ident

/-- The cache key used by allow_request for a throttling config and a
request. -/
def keyOf (th : Throttling) (request : Request) : String :=
  _get_cache_key th.scope (get_ident request)

/-- Embedding of the pruning loop of allow_request:
while history and history[-1] <= cutoff: history.pop().
Popping from the tail while the last element is at most the cutoff is
dropping the longest such suffix. -/
def prune (cutoff : Rat) (history : List Rat) : List Rat :=
  (history.reverse.dropWhile (fun t => t ≤ cutoff)).reverse

/-- The history that allow_request reads for a key: the stored value, or
the empty list when the key is absent (cache.get default). -/
def readHistory (c : Cache) (key : String) : List Rat :=
  ((storeLookup c.data key).map Prod.fst).getD []

/-- Embedding of BaseRateThrottle.allow_request.  The wall clock reading
time.time() is passed in as now; the result is the returned Bool paired
with the cache after the call. -/
def allow_request (throttling_ : Option Throttling) (request : Request)
    (cache : Cache) (now : Rat) : Bool × Cache :=
  match throttling_ with
  | none => (true, cache)
  | some th =>
    let ident := get_ident request
    let key := _get_cache_key th.scope ident
    let (h0, cache1) := cache_get cache key
    let history := prune (now - (th.duration : Rat)) (h0.getD [])
    if th.num_requests ≤ (history.length : Int) then
      (false, cache1)
    else
      (true, cache_set cache1 key (now :: history) th.duration)

/-- Run allow_request once per timestamp of a list, threading the cache;
returns the list of decisions and the final cache. -/
def runCalls (throttling_ : Option Throttling) (request : Request)
    (cache : Cache) : List Rat → List Bool × Cache
  | [] => ([], cache)
  | t :: ts =>
    let r1 := allow_request throttling_ request cache t
    let r2 := runCalls throttling_ request r1.2 ts
    (r1.1 :: r2.1, r2.2)

/-- The whitespace characters stripped by Python int() around a numeric
literal. -/
def isPyWs (c : Char) : Bool :=
  c = ' ' || c = '\t' || c = '\n' || c = '\r' || c = '\x0b' || c = '\x0c'

/-- Strip Python whitespace from both ends of a character list. -/
def stripWs (s : List Char) : List Char :=
  ((s.dropWhile isPyWs).reverse.dropWhile isPyWs).reverse

/-- The value of a decimal digit character, none otherwise. -/
def digitVal (c : Char) : Option Nat :=
  if c.isDigit then some (c.toNat - 48) else none

/-- Continuation of a Python decimal literal after its first digit:
further digits, possibly separated by single underscores, accumulating
the value. -/
def pyDigitTail (acc : Nat) : List Char → Option Nat
  | [] => some acc
  | '_' :: [] => none
  | '_' :: c :: cs =>
    match digitVal c with
    | some d => pyDigitTail (acc * 10 + d) cs
    | none => none
  | c :: cs =>
    match digitVal c with
    | some d => pyDigitTail (acc * 10 + d) cs
    | none => none

/-- An unsigned Python decimal literal: at least one digit, with single
underscores allowed between digits. -/
def pyNat (s : List Char) : Option Nat :=
  match s with
  | [] => none
  | c :: cs =>
    match digitVal c with
    | some d => pyDigitTail d cs
    | none => none

/-- Embedding of Python int(str): strip surrounding whitespace, then an
optional sign followed by an unsigned decimal literal; none models the
ValueError raised otherwise. -/
def pyInt (s : List Char) : Option Int :=
  match stripWs s with
  | '+' :: rest => (pyNat rest).map Int.ofNat
  | '-' :: rest => (pyNat rest).map (fun n => -(n : Int))
  | rest => (pyNat rest).map Int.ofNat

/-- Embedding of rate.split over the single separator character, Python
str.split(sep): the groups of characters between occurrences of the
slash, with empty groups preserved. -/
def splitSlash : List Char → List (List Char)
  | [] => [[]]
  | c :: rest =>
    match splitSlash rest with
    | [] => [[]]
    | g :: gs => if c = '/' then [] :: g :: gs else (c :: g) :: gs

/-- The duration dictionary of _parse_rate, keyed on a single character:
s, m, h, d map to 1, 60, 3600, 86400 seconds; none models the KeyError
raised on any other character. -/
def unitSeconds (c : Char) : Option Int :=
  if c = 's' then some 1
  else if c = 'm' then some 60
  else if c = 'h' then some 3600
  else if c = 'd' then some 86400
  else none

/-- Embedding of _parse_rate.  none models any of the exceptions raised
by the Python body: the unpacking ValueError when the string does not
split into exactly two parts, the int() ValueError, the IndexError on
period[0] when the part after the slash is empty, and the KeyError of
the duration dictionary. -/
def _parse_rate (rate : String) : Option (Int × Int) :=
  match splitSlash rate.data with
  | [num, period] =>
    match pyInt num with
    | none => none
    | some num_requests =>
      match period with
      | [] => none
      | u :: _ =>
        match unitSeconds u with
        | none => none
        | some duration => some (num_requests, duration)
  | _ => none

/-- Embedding of create_throttle_class restricted to the data it really
uses: the rate and scope of the ThrottlingAnnotation (absent annotation
and absent rate both modelled as none) and route.method.full_name.
Except.error models the exception propagated out of _parse_rate; the
Python expression (throttling_annotation.scope or full_name) falls back
to full_name on an empty scope string by truthiness. -/
def create_throttle_class (rate : Option String) (scope : Option String)
    (full_name : String) : Except Unit (Option Throttling) :=
  match rate with
  | none => Except.ok none
  | some r =>
    match _parse_rate r with
    | none => Except.error ()
    | some (num_requests, duration) =>
      let throttling_scope :=
        match scope with
        | some s => if s = "" then full_name else s
        | none => full_name
      Except.ok (some ⟨num_requests, duration, throttling_scope⟩)

/-! Helper lemmas about the store, pruning and allow_request. -/

lemma storeLookup_insert_self (data : List (String × List Rat × Int)) (key : String)
    (v : List Rat) (ttl : Int) :
    storeLookup (storeInsert data key v ttl) key = some (v, ttl) := by
  induction data with
  | nil => simp [storeInsert, storeLookup]
  | cons e rest ih =>
    obtain ⟨k, v0, t0⟩ := e
    by_cases hk : k = key
    · simp [storeInsert, storeLookup, hk]
    · simp [storeInsert, storeLookup, hk, ih]

lemma storeLookup_insert_ne (data : List (String × List Rat × Int)) (key k : String)
    (v : List Rat) (ttl : Int) (hk : k ≠ key) :
    storeLookup (storeInsert data key v ttl) k = storeLookup data k := by
  induction data with
  | nil => simp [storeInsert, storeLookup, Ne.symm hk]
  | cons e rest ih =>
    obtain ⟨k0, v0, t0⟩ := e
    by_cases h0 : k0 = key
    · subst h0
      simp [storeInsert, storeLookup, Ne.symm hk]
    · simp [storeInsert, storeLookup, h0, ih]

lemma dropWhile_eq_self_of {α : Type} (p : α → Bool) :
    ∀ l : List α, (∀ x ∈ l, p x = false) → l.dropWhile p = l
  | [], _ => rfl
  | x :: xs, h => List.dropWhile_cons_of_neg (by simp [h x (by simp)])

lemma prune_eq_self {cutoff : Rat} {h : List Rat} (hall : ∀ x ∈ h, ¬ x ≤ cutoff) :
    prune cutoff h = h := by
  unfold prune
  rw [dropWhile_eq_self_of _ h.reverse, List.reverse_reverse]
  intro x hx
  simpa using hall x (List.mem_reverse.mp hx)

lemma dropWhile_le_eq_filter (c : Rat) :
    ∀ l : List Rat, List.Sorted (· ≤ ·) l →
      l.dropWhile (fun t => t ≤ c) = l.filter (fun t => c < t)
  | [], _ => rfl
  | x :: xs, hs => by
    by_cases hx : x ≤ c
    · rw [List.dropWhile_cons_of_pos (by simpa using hx),
        List.filter_cons_of_neg (by simpa using not_lt.mpr hx)]
      exact dropWhile_le_eq_filter c xs hs.of_cons
    · rw [List.dropWhile_cons_of_neg (by simpa using hx),
        List.filter_cons_of_pos (by simpa using not_le.mp hx)]
      rw [List.filter_eq_self.mpr]
      intro a ha
      exact by simpa using lt_of_lt_of_le (not_le.mp hx) (List.rel_of_sorted_cons hs a ha)

lemma prune_eq_filter (c : Rat) (h : List Rat) (hs : List.Sorted (· ≥ ·) h) :
    prune c h = h.filter (fun t => c < t) := by
  unfold prune
  rw [dropWhile_le_eq_filter c h.reverse, List.filter_reverse, List.reverse_reverse]
  exact List.pairwise_reverse.mpr hs

lemma prune_sublist (c : Rat) (h : List Rat) : (prune c h).Sublist h := by
  unfold prune
  have h1 : (h.reverse.dropWhile (fun t => t ≤ c)).Sublist h.reverse :=
    List.dropWhile_sublist _
  simpa using h1.reverse

lemma mem_of_mem_prune {c x : Rat} {h : List Rat} (hx : x ∈ prune c h) : x ∈ h :=
  (prune_sublist c h).mem hx

lemma allow_request_some_eq (th : Throttling) (r : Request) (c : Cache) (now : Rat) :
    allow_request (some th) r c now =
      (if th.num_requests ≤
          ((prune (now - (th.duration : Rat)) (readHistory c (keyOf th r))).length : Int) then
        (false, { c with getOps := c.getOps + 1 })
      else
        (true, { c with
          data := storeInsert c.data (keyOf th r)
            (now :: prune (now - (th.duration : Rat)) (readHistory c (keyOf th r))) th.duration,
          getOps := c.getOps + 1, setOps := c.setOps + 1 })) := by
  simp only [allow_request, cache_get, cache_set, readHistory, keyOf]

lemma allow_request_reject {th : Throttling} {r : Request} {c : Cache} {now : Rat}
    (hd : th.num_requests ≤
      ((prune (now - (th.duration : Rat)) (readHistory c (keyOf th r))).length : Int)) :
    allow_request (some th) r c now = (false, { c with getOps := c.getOps + 1 }) := by
  rw [allow_request_some_eq, if_pos hd]

lemma allow_request_admitted {th : Throttling} {r : Request} {c : Cache} {now : Rat}
    (hd : ¬ th.num_requests ≤
      ((prune (now - (th.duration : Rat)) (readHistory c (keyOf th r))).length : Int)) :
    allow_request (some th) r c now =
      (true, { c with
        data := storeInsert c.data (keyOf th r)
          (now :: prune (now - (th.duration : Rat)) (readHistory c (keyOf th r))) th.duration,
        getOps := c.getOps + 1, setOps := c.setOps + 1 }) := by
  rw [allow_request_some_eq, if_neg hd]

lemma runCalls_append (th : Option Throttling) (r : Request) :
    ∀ (xs ys : List Rat) (cache : Cache),
      runCalls th r cache (xs ++ ys) =
        ((runCalls th r cache xs).1 ++ (runCalls th r (runCalls th r cache xs).2 ys).1,
          (runCalls th r (runCalls th r cache xs).2 ys).2)
  | [], ys, cache => by simp [runCalls]
  | x :: xs, ys, cache => by
    simp only [List.cons_append, runCalls, List.append_eq]
    rw [runCalls_append th r xs ys]

lemma readHistory_insert_self (c : Cache) (key : String) (v : List Rat) (ttl : Int) :
    readHistory ⟨storeInsert c.data key v ttl, c.getOps + 1, c.setOps + 1⟩ key = v := by
  unfold readHistory
  simp [storeLookup_insert_self]

lemma runCalls_all_admitted (th : Throttling) (r : Request) :
    ∀ (ts : List Rat) (cache : Cache),
      ((readHistory cache (keyOf th r)).length + ts.length : Int) ≤ th.num_requests →
      (∀ t ∈ ts, ∀ x ∈ readHistory cache (keyOf th r), t - (th.duration : Rat) < x) →
      (∀ t ∈ ts, ∀ u ∈ ts, u - (th.duration : Rat) < t) →
      (runCalls (some th) r cache ts).1 = List.replicate ts.length true ∧
      readHistory (runCalls (some th) r cache ts).2 (keyOf th r) =
        ts.reverse ++ readHistory cache (keyOf th r)
  | [], cache => by
    intro _ _ _
    exact ⟨rfl, by simp [runCalls]⟩
  | t :: ts, cache => by
    intro hlen hold hnew
    have hp : prune (t - (th.duration : Rat)) (readHistory cache (keyOf th r)) =
        readHistory cache (keyOf th r) :=
      prune_eq_self (fun x hx => not_le.mpr (hold t (by simp) x hx))
    have hd : ¬ th.num_requests ≤
        ((prune (t - (th.duration : Rat)) (readHistory cache (keyOf th r))).length : Int) := by
      rw [hp]
      simp only [List.length_cons] at hlen
      push_cast at hlen ⊢
      omega
    have hstep := allow_request_admitted hd
    set c1 : Cache := { cache with
      data := storeInsert cache.data (keyOf th r)
        (t :: prune (t - (th.duration : Rat)) (readHistory cache (keyOf th r))) th.duration,
      getOps := cache.getOps + 1, setOps := cache.setOps + 1 } with hc1
    have hrh : readHistory c1 (keyOf th r) = t :: readHistory cache (keyOf th r) := by
      rw [hc1, readHistory_insert_self, hp]
    have ih := runCalls_all_admitted th r ts c1 ?_ ?_ ?_
    · refine ⟨?_, ?_⟩
      · simp only [runCalls, hstep, List.replicate_succ]
        exact congrArg (true :: ·) ih.1
      · simp only [runCalls, hstep]
        rw [ih.2, hrh]
        simp
    · rw [hrh]
      simp only [List.length_cons] at hlen ⊢
      push_cast at hlen ⊢
      omega
    · intro u hu x hx
      rw [hrh] at hx
      rcases List.mem_cons.mp hx with hx | hx
      · rw [hx]
        exact hnew t (by simp) u (by simp [hu])
      · exact hold u (by simp [hu]) x hx
    · intro u hu v hv
      exact hnew u (by simp [hu]) v (by simp [hv])

/-- C1: for a configuration with limit n (n at least 1) and window w,
and a key with no stored history, if n + 1 calls to allow_request for
the same scope and identity all occur within one w-second span, then
exactly the first n calls are admitted and the last call is rejected. -/
theorem fresh_key_first_n_admitted (th : Throttling) (r : Request) (cache : Cache)
    (ts : List Rat) (n : Nat) (hn : 1 ≤ n) (hnum : th.num_requests = (n : Int))
    (hfresh : storeLookup cache.data (keyOf th r) = none)
    (hcount : ts.length = n + 1)
    (hspan : ∀ s ∈ ts, ∀ u ∈ ts, u - s < (th.duration : Rat)) :
    (runCalls (some th) r cache ts).1 = List.replicate n true ++ [false] := by
  have hne : ts ≠ [] := by
    intro h
    rw [h] at hcount
    simp at hcount
  have hdec : ts.dropLast ++ [ts.getLast hne] = ts := List.dropLast_append_getLast hne
  have hsub : ∀ x ∈ ts.dropLast, x ∈ ts := fun x hx => List.dropLast_subset ts hx
  have hlast : ts.getLast hne ∈ ts := List.getLast_mem hne
  have hrh0 : readHistory cache (keyOf th r) = [] := by
    unfold readHistory
    rw [hfresh]
    rfl
  have hinit := runCalls_all_admitted th r ts.dropLast cache ?_ ?_ ?_
  · have hlen1 : ts.dropLast.length = n := by
      rw [List.length_dropLast, hcount]
      omega
    rw [← hdec, runCalls_append th r ts.dropLast [ts.getLast hne] cache]
    set c1 := (runCalls (some th) r cache ts.dropLast).2 with hc1
    have hrh1 : readHistory c1 (keyOf th r) = ts.dropLast.reverse := by
      rw [hc1, hinit.2, hrh0, List.append_nil]
    have hpr : prune (ts.getLast hne - (th.duration : Rat))
        (readHistory c1 (keyOf th r)) = ts.dropLast.reverse := by
      rw [hrh1]
      exact prune_eq_self (fun x hx => not_le.mpr (by
        have hx0 : x ∈ ts := hsub x (List.mem_reverse.mp hx)
        have := hspan x hx0 (ts.getLast hne) hlast
        linarith))
    have hrej : th.num_requests ≤
        ((prune (ts.getLast hne - (th.duration : Rat))
          (readHistory c1 (keyOf th r))).length : Int) := by
      rw [hpr, hnum]
      simp [hlen1]
    rw [hinit.1, hlen1]
    simp only [runCalls, allow_request_reject hrej]
  · rw [hrh0, List.length_dropLast, hcount, hnum]
    simp only [List.length_nil]
    push_cast
    omega
  · intro u _ x hx
    rw [hrh0] at hx
    simp at hx
  · intro u hu v hv
    have := hspan u (hsub u hu) v (hsub v hv)
    linarith

unseal Rat.sub Rat.add Rat.mul Rat.inv in
/-- C1 witness: the spec scenario, limit 5 per 1 second for identity u1
with five calls in the first 5 hundredths of a second admitted and the
sixth call rejected. -/
theorem fresh_key_first_n_admitted_witness :
    (runCalls (some ⟨5, 1, "api"⟩) ⟨false, none, none, some "u1"⟩ ⟨[], 0, 0⟩
      [0, 1 / 100, 2 / 100, 3 / 100, 4 / 100, 5 / 100]).1 =
      List.replicate 5 true ++ [false] :=
  fresh_key_first_n_admitted ⟨5, 1, "api"⟩ ⟨false, none, none, some "u1"⟩ ⟨[], 0, 0⟩
    [0, 1 / 100, 2 / 100, 3 / 100, 4 / 100, 5 / 100] 5
    (by decide) (by decide) rfl rfl (by decide)

/-- C3: for a stored history in the newest-first order the code
maintains, pruning with cutoff now - w keeps exactly the timestamps in
the right-open window (now - w, now]: the pruned history is the filter
by now - w < t, and in particular a timestamp lying exactly on the
boundary now - w is pruned and never counts toward the limit. -/
theorem prune_boundary_right_open (now w : Rat) (h : List Rat)
    (hs : List.Sorted (· ≥ ·) h) :
    prune (now - w) h = h.filter (fun t => now - w < t) ∧
    (now - w) ∉ prune (now - w) h := by
  refine ⟨prune_eq_filter _ h hs, ?_⟩
  rw [prune_eq_filter _ h hs]
  simp

/-- C3 witness: a concrete sorted history with a timestamp exactly on
the boundary, which the pruning drops. -/
theorem prune_boundary_right_open_witness :
    prune ((3 : Rat) - 1) [3, 2, 1] = List.filter (fun t => (3 : Rat) - 1 < t) [3, 2, 1] ∧
    ((3 : Rat) - 1) ∉ prune ((3 : Rat) - 1) [3, 2, 1] :=
  prune_boundary_right_open 3 1 [3, 2, 1] (by decide)

unseal Rat.sub Rat.add Rat.mul Rat.inv in
/-- C4 counterexample: a rejected call performs no store write at all,
so the pruned history is not persisted.  With limit 1, window 1 and the
stored history [10, 5] under the derived key, the call at time 21/2 is
rejected, the set counter stays 0, the store still holds the unpruned
[10, 5], and that differs from the pruned history [10] the claim says
is persisted. -/
theorem reject_persists_pruned_counterexample :
    (allow_request (some ⟨1, 1, "s"⟩) ⟨false, none, none, some "u"⟩
        ⟨[("throttle_s_u", [10, 5], 1)], 0, 0⟩ (21 / 2)).1 = false ∧
    (allow_request (some ⟨1, 1, "s"⟩) ⟨false, none, none, some "u"⟩
        ⟨[("throttle_s_u", [10, 5], 1)], 0, 0⟩ (21 / 2)).2.setOps = 0 ∧
    storeLookup (allow_request (some ⟨1, 1, "s"⟩) ⟨false, none, none, some "u"⟩
        ⟨[("throttle_s_u", [10, 5], 1)], 0, 0⟩ (21 / 2)).2.data "throttle_s_u" =
      some ([10, 5], 1) ∧
    prune ((21 / 2 : Rat) - 1) [10, 5] = [10] ∧
    ([10, 5] : List Rat) ≠ [10] := by decide

/-- C4 (amended): whenever allow_request rejects - the post-prune
history length is at least the limit - it returns False and performs no
store write: the cache data, hence the stored history under the derived
key, is exactly what it was before the call, with only the get counter
bumped; the pruned history is not persisted. -/
theorem reject_returns_false_no_write (th : Throttling) (r : Request) (cache : Cache)
    (now : Rat)
    (hrej : th.num_requests ≤
      ((prune (now - (th.duration : Rat)) (readHistory cache (keyOf th r))).length : Int)) :
    allow_request (some th) r cache now = (false, { cache with getOps := cache.getOps + 1 }) :=
  allow_request_reject hrej

unseal Rat.sub Rat.add Rat.mul Rat.inv in
/-- C4 witness: with limit 0 the very first call is rejected, returning
False and leaving the store data empty. -/
theorem reject_returns_false_no_write_witness :
    allow_request (some ⟨0, 1, "s"⟩) ⟨false, none, none, some "u"⟩ ⟨[], 0, 0⟩ 0 =
      (false, ⟨[], 1, 0⟩) :=
  reject_returns_false_no_write _ _ _ _ (by decide)

/-- C5: a rejected call leaves the store data, hence the TTL of the
derived key, untouched (it performs no set at all), while every admitted
call writes the key with the new history and a TTL equal to the
configured duration. -/
theorem ttl_refresh_admit_only (th : Throttling) (r : Request) (cache : Cache) (now : Rat) :
    ((allow_request (some th) r cache now).1 = false →
      (allow_request (some th) r cache now).2.data = cache.data ∧
      (allow_request (some th) r cache now).2.setOps = cache.setOps) ∧
    ((allow_request (some th) r cache now).1 = true →
      storeLookup (allow_request (some th) r cache now).2.data (keyOf th r) =
        some (now :: prune (now - (th.duration : Rat)) (readHistory cache (keyOf th r)),
          th.duration)) := by
  by_cases hd : th.num_requests ≤
      ((prune (now - (th.duration : Rat)) (readHistory cache (keyOf th r))).length : Int)
  · rw [allow_request_reject hd]
    exact ⟨fun _ => ⟨rfl, rfl⟩, fun hc => by simp at hc⟩
  · rw [allow_request_admitted hd]
    refine ⟨fun hc => by simp at hc, fun _ => ?_⟩
    exact storeLookup_insert_self _ _ _ _

unseal Rat.sub Rat.add Rat.mul Rat.inv in
/-- C5 witness: a rejected call (limit 0) leaves the data unchanged; an
admitted call (limit 1) stores the new history with TTL 1, the
configured duration. -/
theorem ttl_refresh_admit_only_witness :
    (allow_request (some ⟨0, 1, "s"⟩) ⟨false, none, none, some "u"⟩ ⟨[], 0, 0⟩ 0).2.data =
      ([] : List (String × List Rat × Int)) ∧
    storeLookup (allow_request (some ⟨1, 1, "s"⟩) ⟨false, none, none, some "u"⟩
        ⟨[], 0, 0⟩ 0).2.data (keyOf ⟨1, 1, "s"⟩ ⟨false, none, none, some "u"⟩) =
      some (0 :: prune ((0 : Rat) - 1)
        (readHistory ⟨[], 0, 0⟩ (keyOf ⟨1, 1, "s"⟩ ⟨false, none, none, some "u"⟩)), 1) :=
  ⟨((ttl_refresh_admit_only ⟨0, 1, "s"⟩ ⟨false, none, none, some "u"⟩ ⟨[], 0, 0⟩ 0).1
      (by decide)).1,
   (ttl_refresh_admit_only ⟨1, 1, "s"⟩ ⟨false, none, none, some "u"⟩ ⟨[], 0, 0⟩ 0).2
      (by decide)⟩

/-- C10: when the history read for the derived key is sorted
newest-first and every stored timestamp is at most now, the history
found under the key after the call is again sorted newest-first, and on
admission its first element is now. -/
theorem history_order_preserved (th : Throttling) (r : Request) (cache : Cache) (now : Rat)
    (hs : List.Sorted (· ≥ ·) (readHistory cache (keyOf th r)))
    (hle : ∀ t ∈ readHistory cache (keyOf th r), t ≤ now) :
    ∀ h ttl,
      storeLookup (allow_request (some th) r cache now).2.data (keyOf th r) = some (h, ttl) →
        List.Sorted (· ≥ ·) h ∧
        ((allow_request (some th) r cache now).1 = true → h.head? = some now) := by
  intro h ttl hlk
  by_cases hd : th.num_requests ≤
      ((prune (now - (th.duration : Rat)) (readHistory cache (keyOf th r))).length : Int)
  · rw [allow_request_reject hd] at hlk ⊢
    have hlk0 : storeLookup cache.data (keyOf th r) = some (h, ttl) := hlk
    refine ⟨?_, by simp⟩
    have hh : readHistory cache (keyOf th r) = h := by
      unfold readHistory
      rw [hlk0]
      rfl
    rw [← hh]
    exact hs
  · rw [allow_request_admitted hd] at hlk ⊢
    have hlk0 : storeLookup
        (storeInsert cache.data (keyOf th r)
          (now :: prune (now - (th.duration : Rat)) (readHistory cache (keyOf th r)))
          th.duration) (keyOf th r) = some (h, ttl) := hlk
    rw [storeLookup_insert_self] at hlk0
    have hh : now :: prune (now - (th.duration : Rat)) (readHistory cache (keyOf th r)) = h := by
      simpa using congrArg (fun o => (Option.map Prod.fst o).getD []) hlk0
    refine ⟨?_, fun _ => hh ▸ rfl⟩
    rw [← hh, List.sorted_cons]
    constructor
    · intro b hb
      exact hle b (mem_of_mem_prune hb)
    · exact List.Pairwise.sublist (prune_sublist _ _) hs

unseal Rat.sub Rat.add Rat.mul Rat.inv in
/-- C10 witness: a concrete admitted call on a sorted stored history,
whose resulting stored history is sorted with the call time in front. -/
theorem history_order_preserved_witness :
    List.Sorted (· ≥ ·) ([3, 2, 1] : List Rat) ∧
    ((allow_request (some ⟨5, 10, "s"⟩) ⟨false, none, none, some "u"⟩
        ⟨[("throttle_s_u", [2, 1], 10)], 0, 0⟩ 3).1 = true →
      ([3, 2, 1] : List Rat).head? = some 3) := by
  have h := history_order_preserved ⟨5, 10, "s"⟩ ⟨false, none, none, some "u"⟩
    ⟨[("throttle_s_u", [2, 1], 10)], 0, 0⟩ 3 (by decide) (by decide) [3, 2, 1] 10 (by decide)
  exact ⟨h.1, h.2⟩

lemma allow_request_decision_congr (th : Throttling) (r : Request) (c1 c2 : Cache)
    (now : Rat)
    (h : storeLookup c1.data (keyOf th r) = storeLookup c2.data (keyOf th r)) :
    (allow_request (some th) r c1 now).1 = (allow_request (some th) r c2 now).1 := by
  have hrh : readHistory c1 (keyOf th r) = readHistory c2 (keyOf th r) := by
    unfold readHistory
    rw [h]
  rw [allow_request_some_eq, allow_request_some_eq, hrh]
  by_cases hd : th.num_requests ≤
      ((prune (now - (th.duration : Rat)) (readHistory c2 (keyOf th r))).length : Int)
  · rw [if_pos hd, if_pos hd]
  · rw [if_neg hd, if_neg hd]

lemma allow_request_other_key_frame (th th2 : Throttling) (r r2 : Request)
    (cache : Cache) (now now2 : Rat) (hk : keyOf th r ≠ keyOf th2 r2) :
    storeLookup (allow_request (some th) r cache now).2.data (keyOf th2 r2) =
      storeLookup cache.data (keyOf th2 r2) ∧
    (allow_request (some th2) r2 (allow_request (some th) r cache now).2 now2).1 =
      (allow_request (some th2) r2 cache now2).1 := by
  have hdata : storeLookup (allow_request (some th) r cache now).2.data (keyOf th2 r2) =
      storeLookup cache.data (keyOf th2 r2) := by
    by_cases hd : th.num_requests ≤
        ((prune (now - (th.duration : Rat)) (readHistory cache (keyOf th r))).length : Int)
    · rw [allow_request_reject hd]
    · rw [allow_request_admitted hd]
      exact storeLookup_insert_ne _ _ _ _ _ (Ne.symm hk)
  exact ⟨hdata, allow_request_decision_congr th2 r2 _ cache now2 hdata⟩

lemma cache_key_ne_of_scope_ne {s1 s2 : String} (i : String) (hs : s1 ≠ s2) :
    _get_cache_key s1 (some i) ≠ _get_cache_key s2 (some i) := by
  intro he
  apply hs
  have hd := congrArg String.data he
  simp only [_get_cache_key, pyStr, String.data_append] at hd
  exact String.ext (List.append_cancel_left
    (List.append_cancel_right (List.append_cancel_right hd)))

lemma cache_key_ne_of_ident_ne (s : String) {i1 i2 : String} (hi : i1 ≠ i2) :
    _get_cache_key s (some i1) ≠ _get_cache_key s (some i2) := by
  intro he
  apply hi
  have hd := congrArg String.data he
  simp only [_get_cache_key, pyStr, String.data_append] at hd
  exact String.ext (List.append_cancel_left hd)

/-- C2: two distinct scopes with the same identity, or the same scope
with two distinct identities, always derive distinct store keys (the
concatenated key cancels on the shared coordinate), so a call to
allow_request under one pair never changes the stored history under the
other pair's key, nor the admit/reject decision of a call under the
other pair. -/
theorem scope_identity_budgets_independent (th th2 : Throttling) (r r2 : Request)
    (i1 i2 : String) (cache : Cache) (now now2 : Rat)
    (hi1 : get_ident r = some i1) (hi2 : get_ident r2 = some i2)
    (hcase : (th.scope ≠ th2.scope ∧ i1 = i2) ∨ (th.scope = th2.scope ∧ i1 ≠ i2)) :
    keyOf th r ≠ keyOf th2 r2 ∧
    storeLookup (allow_request (some th) r cache now).2.data (keyOf th2 r2) =
      storeLookup cache.data (keyOf th2 r2) ∧
    (allow_request (some th2) r2 (allow_request (some th) r cache now).2 now2).1 =
      (allow_request (some th2) r2 cache now2).1 := by
  have hk : keyOf th r ≠ keyOf th2 r2 := by
    unfold keyOf
    rw [hi1, hi2]
    rcases hcase with ⟨hs, hi⟩ | ⟨hs, hi⟩
    · rw [← hi]
      exact cache_key_ne_of_scope_ne i1 hs
    · rw [← hs]
      exact cache_key_ne_of_ident_ne th.scope hi
  obtain ⟨h1, h2⟩ := allow_request_other_key_frame th th2 r r2 cache now now2 hk
  exact ⟨hk, h1, h2⟩

/-- C2 witness: the distinct scopes a and b with the same identity x
derive distinct keys, and the first pair's call leaves the second
pair's stored entry and decision unchanged. -/
theorem scope_identity_budgets_independent_witness :
    keyOf ⟨1, 1, "a"⟩ ⟨false, none, none, some "x"⟩ ≠
      keyOf ⟨1, 1, "b"⟩ ⟨false, none, none, some "x"⟩ ∧
    storeLookup (allow_request (some ⟨1, 1, "a"⟩) ⟨false, none, none, some "x"⟩
        ⟨[], 0, 0⟩ 0).2.data (keyOf ⟨1, 1, "b"⟩ ⟨false, none, none, some "x"⟩) =
      storeLookup (Cache.mk [] 0 0).data (keyOf ⟨1, 1, "b"⟩ ⟨false, none, none, some "x"⟩) ∧
    (allow_request (some ⟨1, 1, "b"⟩) ⟨false, none, none, some "x"⟩
        (allow_request (some ⟨1, 1, "a"⟩) ⟨false, none, none, some "x"⟩ ⟨[], 0, 0⟩ 0).2 0).1 =
      (allow_request (some ⟨1, 1, "b"⟩) ⟨false, none, none, some "x"⟩ ⟨[], 0, 0⟩ 0).1 :=
  scope_identity_budgets_independent ⟨1, 1, "a"⟩ ⟨1, 1, "b"⟩
    ⟨false, none, none, some "x"⟩ ⟨false, none, none, some "x"⟩ "x" "x"
    ⟨[], 0, 0⟩ 0 0 rfl rfl (Or.inl ⟨by decide, rfl⟩)

/-- C7 counterexample: with no authenticated user, no forwarded-for
header and no remote address, get_ident returns no string at all
(Python None), not an "unknown" sentinel; and with an empty remote
address it returns the empty string.  So the result is neither always
non-empty nor ever the sentinel. -/
theorem get_ident_no_sentinel_counterexample :
    get_ident ⟨false, none, none, none⟩ = none ∧
    get_ident ⟨false, none, none, none⟩ ≠ some "unknown" ∧
    get_ident ⟨false, none, none, some ""⟩ = some "" := by decide

/-- C7 (amended): get_ident is a total function (never throws) that
resolves, in order: the authenticated principal's pk rendered as a
string; else the forwarded-for header with all whitespace removed, when
that header is present and non-empty; else the remote address exactly
as given, which may be absent (Python None) or empty - there is no
"unknown" sentinel and the result is not guaranteed non-empty. -/
theorem get_ident_resolution :
    (∀ r : Request, ∀ p, r.is_authenticated = true → r.pk = some p →
      get_ident r = some (toString p)) ∧
    (∀ r : Request, ∀ x, (r.is_authenticated = false ∨ r.pk = none) →
      r.http_x_forwarded_for = some x → x ≠ "" →
      get_ident r = some (removeWhitespace x)) ∧
    (∀ r : Request, (r.is_authenticated = false ∨ r.pk = none) →
      (r.http_x_forwarded_for = none ∨ r.http_x_forwarded_for = some "") →
      get_ident r = r.remote_addr) ∧
    removeWhitespace " 1.2.3.4 , 5.6.7.8" = "1.2.3.4,5.6.7.8" := by
  refine ⟨?_, ?_, ?_, by decide⟩
  · intro r p ha hp
    simp [get_ident, ha, hp]
  · intro r x h0 hx hne
    rcases h0 with h0 | h0
    · simp [get_ident, h0, get_ident_from_meta, hx, hne]
    · cases hb : r.is_authenticated <;>
        simp [get_ident, hb, h0, get_ident_from_meta, hx, hne]
  · intro r h0 hxff
    rcases hxff with hxff | hxff <;> rcases h0 with h0 | h0 <;>
      cases hb : r.is_authenticated <;>
        simp_all [get_ident, get_ident_from_meta]

/-- C7 witness: the spec scenarios - an authenticated principal with pk
42 yields identity 42 regardless of headers, and an anonymous caller
with a forwarded-for header yields the header whitespace-stripped. -/
theorem get_ident_resolution_witness :
    get_ident ⟨true, some 42, some "9.9.9.9", some "1.1.1.1"⟩ = some "42" ∧
    get_ident ⟨false, none, some " 1.2.3.4 , 5.6.7.8", some "1.1.1.1"⟩ =
      some "1.2.3.4,5.6.7.8" := by
  constructor
  · rw [get_ident_resolution.1 ⟨true, some 42, some "9.9.9.9", some "1.1.1.1"⟩ 42 rfl rfl]
    decide
  · rw [get_ident_resolution.2.1 ⟨false, none, some " 1.2.3.4 , 5.6.7.8", some "1.1.1.1"⟩
      " 1.2.3.4 , 5.6.7.8" (Or.inl rfl) rfl (by decide)]
    decide

/-- C6: if no throttling configuration is bound, allow_request returns
True and performs no store operation: the cache, its data and both its
operation counters included, is returned unchanged. -/
theorem allow_request_none_no_store (request : Request) (cache : Cache) (now : Rat) :
    allow_request none request cache now = (true, cache) ∧
    (allow_request none request cache now).2.getOps = cache.getOps ∧
    (allow_request none request cache now).2.setOps = cache.setOps :=
  ⟨rfl, rfl, rfl⟩

lemma splitSlash_cons_eq (c : Char) (rest g : List Char) (gs : List (List Char))
    (hs : splitSlash rest = g :: gs) :
    splitSlash (c :: rest) = if c = '/' then [] :: g :: gs else (c :: g) :: gs := by
  simp only [splitSlash, hs]

lemma splitSlash_ne_nil : ∀ l : List Char, splitSlash l ≠ []
  | [] => by simp [splitSlash]
  | c :: rest => by
    cases hs : splitSlash rest with
    | nil => exact absurd hs (splitSlash_ne_nil rest)
    | cons g gs =>
      rw [splitSlash_cons_eq c rest g gs hs]
      by_cases hc : c = '/' <;> simp [hc]

lemma splitSlash_no_slash : ∀ l : List Char, '/' ∉ l → splitSlash l = [l]
  | [], _ => rfl
  | c :: rest, h => by
    have hc : ¬ c = '/' := fun e => h (e ▸ List.mem_cons_self c rest)
    have ih := splitSlash_no_slash rest (fun hm => h (List.mem_cons_of_mem c hm))
    rw [splitSlash_cons_eq c rest rest [] ih, if_neg hc]

lemma splitSlash_append (b : List Char) : ∀ a : List Char, '/' ∉ a →
    splitSlash (a ++ '/' :: b) = a :: splitSlash b
  | [], _ => by
    cases hs : splitSlash b with
    | nil => exact absurd hs (splitSlash_ne_nil b)
    | cons g gs =>
      rw [List.nil_append, splitSlash_cons_eq '/' b g gs hs, if_pos rfl]
  | c :: a, h => by
    have hc : ¬ c = '/' := fun e => h (e ▸ List.mem_cons_self c a)
    have ih := splitSlash_append b a (fun hm => h (List.mem_cons_of_mem c hm))
    rw [List.cons_append, splitSlash_cons_eq c (a ++ '/' :: b) a (splitSlash b) ih,
      if_neg hc]

lemma splitSlash_one : ∀ l g : List Char, splitSlash l = [g] → l = g ∧ '/' ∉ g
  | [], g => by
    intro h
    simp [splitSlash] at h
    subst h
    exact ⟨rfl, by simp⟩
  | c :: rest, g => by
    intro h
    cases hs : splitSlash rest with
    | nil => exact absurd hs (splitSlash_ne_nil rest)
    | cons g0 gs =>
      rw [splitSlash_cons_eq c rest g0 gs hs] at h
      by_cases hc : c = '/'
      · rw [if_pos hc] at h
        simp at h
      · rw [if_neg hc] at h
        injection h with h1 h2
        obtain ⟨hr, hng⟩ := splitSlash_one rest g0 (by rw [hs, h2])
        subst h1
        refine ⟨by rw [hr], ?_⟩
        intro hm
        rcases List.mem_cons.mp hm with hm | hm
        · exact hc hm.symm
        · exact hng hm

lemma splitSlash_two : ∀ l a b : List Char, splitSlash l = [a, b] →
    l = a ++ '/' :: b ∧ '/' ∉ a ∧ '/' ∉ b
  | [], a, b => by
    intro h
    simp [splitSlash] at h
  | c :: rest, a, b => by
    intro h
    cases hs : splitSlash rest with
    | nil => exact absurd hs (splitSlash_ne_nil rest)
    | cons g0 gs =>
      rw [splitSlash_cons_eq c rest g0 gs hs] at h
      by_cases hc : c = '/'
      · rw [if_pos hc] at h
        injection h with h1 h2
        injection h2 with h2a h2b
        obtain ⟨hr, hnb⟩ := splitSlash_one rest g0 (by rw [hs, h2b])
        subst h1
        subst h2a
        subst hc
        exact ⟨by rw [hr, List.nil_append], by simp, hnb⟩
      · rw [if_neg hc] at h
        injection h with h1 h2
        obtain ⟨hr, hna, hnb⟩ := splitSlash_two rest g0 b (by rw [hs, h2])
        subst h1
        refine ⟨by rw [List.cons_append, ← hr], ?_, hnb⟩
        intro hm
        rcases List.mem_cons.mp hm with hm | hm
        · exact hc hm.symm
        · exact hna hm

/-- C8 counterexample: strings outside the form positive-integer slash
single-unit-character are accepted by the parser: characters after the
unit's first character are ignored, zero and negative counts parse, and
surrounding whitespace around the integer is allowed.  So the parser
does not fail on every string outside that form. -/
theorem parse_rate_counterexample :
    _parse_rate "5/sx" = some (5, 1) ∧
    _parse_rate "0/s" = some (0, 1) ∧
    _parse_rate "-3/s" = some (-3, 1) ∧
    _parse_rate " 5/s" = some (5, 1) := by decide

/-- C8 (amended): the rate parser succeeds exactly on strings with a
single slash whose left part is a valid Python integer literal (sign,
surrounding whitespace and digit underscores allowed, not necessarily
positive) and whose right part is non-empty with first character among
s, m, h, d - any further characters of the unit are ignored - the units
mapping to 1, 60, 3600 and 86400 seconds; parsing 5/s yields (5, 1) and
parsing 10/x fails (the dictionary lookup raises, modelled as none). -/
theorem parse_rate_characterization :
    (∀ s : String, (_parse_rate s).isSome ↔
      ∃ a b : List Char, s.data = a ++ '/' :: b ∧ '/' ∉ a ∧ '/' ∉ b ∧
        (pyInt a).isSome ∧ ∃ u us, b = u :: us ∧ (unitSeconds u).isSome) ∧
    _parse_rate "5/s" = some (5, 1) ∧
    _parse_rate "10/x" = none := by
  refine ⟨?_, by decide, by decide⟩
  intro s
  constructor
  · intro hs
    unfold _parse_rate at hs
    split at hs
    · rename_i num period heq
      obtain ⟨hsplit, hna, hnb⟩ := splitSlash_two s.data num period heq
      cases hp : pyInt num with
      | none => rw [hp] at hs; simp at hs
      | some n =>
        rw [hp] at hs
        cases period with
        | nil => simp at hs
        | cons u us =>
          simp only [] at hs
          cases hu : unitSeconds u with
          | none => simp [hu] at hs
          | some d =>
            exact ⟨num, u :: us, hsplit, hna, hnb, by simp [hp], u, us, rfl, by simp [hu]⟩
    · simp at hs
  · rintro ⟨a, b, hsplit, hna, hnb, hpi, u, us, hb, hu⟩
    unfold _parse_rate
    rw [hsplit, splitSlash_append b a hna]
    obtain ⟨n, hn⟩ := Option.isSome_iff_exists.mp hpi
    obtain ⟨d, hd⟩ := Option.isSome_iff_exists.mp hu
    subst hb
    simp [splitSlash_no_slash (u :: us) hnb, hn, hd]

/-- C8 witness: instantiating the characterization at the accepted
string 7/m yields its decomposition. -/
theorem parse_rate_characterization_witness :
    ∃ a b : List Char, ("7/m" : String).data = a ++ '/' :: b ∧ '/' ∉ a ∧ '/' ∉ b ∧
      (pyInt a).isSome ∧ ∃ u us, b = u :: us ∧ (unitSeconds u).isSome :=
  (parse_rate_characterization.1 "7/m").mp (by decide)

lemma unitSeconds_pos {c : Char} {d : Int} (h : unitSeconds c = some d) :
    1 ≤ d ∧ d ∈ ([1, 60, 3600, 86400] : List Int) := by
  unfold unitSeconds at h
  split_ifs at h
  all_goals first
  | exact Option.noConfusion h
  | (injection h with h
     subst h
     exact ⟨by norm_num, by simp⟩)

lemma parse_rate_duration {r : String} {n d : Int} (h : _parse_rate r = some (n, d)) :
    ∃ c, unitSeconds c = some d := by
  unfold _parse_rate at h
  split at h
  · rename_i num period heq
    cases hp : pyInt num with
    | none => rw [hp] at h; simp at h
    | some m =>
      rw [hp] at h
      cases period with
      | nil => simp at h
      | cons u us =>
        cases hu : unitSeconds u with
        | none => simp [hu] at h
        | some d0 =>
          simp only [hu, Option.some.injEq, Prod.mk.injEq] at h
          exact ⟨u, by rw [hu, h.2]⟩
  · simp at h

/-- C9 counterexample: the parser-accepted rate string 0/s produces a
Throttling whose num_requests is 0, violating the claimed invariant of
a limit of at least 1. -/
theorem created_limit_zero_counterexample :
    create_throttle_class (some "0/s") none "handler" =
      Except.ok (some ⟨0, 1, "handler"⟩) ∧
    ¬ (1 ≤ (Throttling.mk 0 1 "handler").num_requests) := ⟨rfl, by decide⟩

/-- C9 (amended): every Throttling produced from an accepted rate
string has duration at least 1 - it is one of 1, 60, 3600, 86400
seconds - while num_requests is whatever integer the parser accepted,
which can be zero or negative. -/
theorem created_duration_positive (rate scope : Option String) (full_name : String)
    (th : Throttling)
    (h : create_throttle_class rate scope full_name = Except.ok (some th)) :
    1 ≤ th.duration ∧ th.duration ∈ ([1, 60, 3600, 86400] : List Int) := by
  unfold create_throttle_class at h
  split at h
  · exact Option.noConfusion (Except.ok.inj h)
  · split at h
    · exact Except.noConfusion h
    · rename_i num duration hp
      have hth := Option.some.inj (Except.ok.inj h)
      obtain ⟨c, hc⟩ := parse_rate_duration hp
      rw [← hth]
      exact unitSeconds_pos hc

/-- C9 witness: the Throttling created from the rate 5/s has
duration 1. -/
theorem created_duration_positive_witness :
    1 ≤ (Throttling.mk 5 1 "handler").duration ∧
    (Throttling.mk 5 1 "handler").duration ∈ ([1, 60, 3600, 86400] : List Int) :=
  created_duration_positive (some "5/s") none "handler" ⟨5, 1, "handler"⟩ rfl

end Winter
